import Mathlib

/-!
Shallow embedding of the `Bayes` belief-vector library
(`src/bayesian/__init__.py` and `src/bayes.py`).

A Python `Bayes` object is a `list` of odds carrying a parallel `labels`
list; we embed it as a structure holding the two lists, with weights as
exact rationals.  Operations that can raise a Python exception
(`ZeroDivisionError` on normalization, `KeyError` on a dictionary cast,
`IndexError` / `ValueError` inside `most_likely`) return `Option`.
-/

set_option linter.unusedVariables false

/-- A belief vector: the ordered labels and the parallel list of odds.
Mirrors the Python `Bayes(list)` object, whose list contents are the
weights and whose `labels` attribute is the label list. -/
structure Bayes where
  labels : List String
  weights : List ℚ
  deriving DecidableEq, Repr

/-- The three kinds of "odds-like" inputs `Bayes._cast` accepts: a bare
sequence of odds, a dictionary label-to-odds (modelled as an association
list with distinct keys), or another `Bayes` object. -/
inductive OddsLike where
  | seq : List ℚ → OddsLike
  | mapping : List (String × ℚ) → OddsLike
  | vector : Bayes → OddsLike
  deriving DecidableEq, Repr

/-- Dictionary lookup: `d[k]` on the association list, `none` models a
Python `KeyError`. -/
def alookup (m : List (String × ℚ)) (k : String) : Option ℚ :=
  (m.find? (fun p => p.1 == k)).map (fun p => p.2)

/-- Insertion step for sorting strings, used to model the Python builtin
`sorted` applied to the dictionary keys. -/
def insertStr (s : String) : List String → List String
  | [] => [s]
  | t :: ts => if s ≤ t then s :: t :: ts else t :: insertStr s ts

/-- Insertion sort on strings, modelling the Python builtin `sorted`. -/
def sortStrs : List String → List String
  | [] => []
  | s :: ss => insertStr s (sortStrs ss)

/-- Stringified positional index labels, modelling the constructor
fallback `map(str, range(len(self)))`. -/
def defaultLabels (n : ℕ) : List String :=
  (List.range n).map (fun i => toString i)

/-- Embeds `Bayes._cast` (src/bayesian/__init__.py lines 178-186,
src/bayes.py lines 44-52): a `Bayes` input is returned unchanged;
otherwise `Bayes(other, self.labels)` is built.  The constructor ends
with `self.labels = labels or map(str, range(len(self)))`, and an empty
label list is falsy in Python: for a bare sequence cast from a vector
with empty labels the result carries stringified positional index
labels, otherwise the supplied labels.  For a dictionary the
constructor first evaluates `labels or sorted(value.keys())` (the same
falsiness, hence the sorted-keys fallback) and reads `value[label]` for
each label, raising `KeyError` (`none`) on a missing key. -/
def Bayes.cast (self : Bayes) (other : OddsLike) : Option Bayes :=
  match other with
  | OddsLike.vector b => some b
  | OddsLike.seq ws =>
    some ⟨if self.labels = [] then defaultLabels ws.length else self.labels, ws⟩
  | OddsLike.mapping m =>
    let lbs := if self.labels = [] then sortStrs (m.map (fun p => p.1)) else self.labels
    (lbs.mapM (alookup m)).map (fun ws => ⟨lbs, ws⟩)

/-- Embeds `Bayes.opposite` (src/bayesian/__init__.py lines 188-196,
src/bayes.py lines 54-62): if `0 in self`, every zero weight becomes 1
and every non-zero weight becomes 0; otherwise every weight is replaced
by its reciprocal.  The result of `self._cast(generator)` carries
`self.labels`. -/
def Bayes.opposite (self : Bayes) : Bayes :=
  if (0 : ℚ) ∈ self.weights then
    ⟨self.labels, self.weights.map (fun i => if i = 0 then 1 else 0)⟩
  else
    ⟨self.labels, self.weights.map (fun i => 1 / i)⟩

/-- Embeds `Bayes.normalized` (src/bayesian/__init__.py lines 198-203,
src/bayes.py lines 64-69): divide every weight by the total.  When the
total is zero and at least one division is attempted, Python raises
`ZeroDivisionError` (`none` here); on an empty vector the generator
performs no division and an empty vector is returned.  The Python local
`total = float(sum(self))` is inlined as `self.weights.sum`. -/
def Bayes.normalized (self : Bayes) : Option Bayes :=
  if self.weights.sum = 0 ∧ self.weights ≠ [] then none
  else some ⟨self.labels, self.weights.map (fun i => i / self.weights.sum)⟩

/-- Embeds `Bayes.__mul__` (src/bayesian/__init__.py lines 205-210,
src/bayes.py lines 71-76): elementwise product of `self` and
`self._cast(other)`, zipped positionally (`zip` truncates to the shorter
list), with the labels of `self`. -/
def Bayes.mul (self : Bayes) (other : OddsLike) : Option Bayes :=
  (self.cast other).map (fun o => ⟨self.labels, List.zipWith (· * ·) self.weights o.weights⟩)

/-- Embeds `Bayes.update` of src/bayesian/__init__.py lines 220-227 (the
normalizing variant): `self[:] = (self * self._cast(event)).normalized()`.
The slice assignment replaces the weights and leaves `self.labels`
untouched; the product already carries `self.labels`. -/
def Bayes.update (self : Bayes) (event : OddsLike) : Option Bayes :=
  self.mul event >>= Bayes.normalized

/-- Embeds `Bayes.update` of src/bayes.py lines 86-93 (the
non-normalizing variant): `self[:] = self * self._cast(event)`. -/
def Bayes.update_raw (self : Bayes) (event : OddsLike) : Option Bayes :=
  self.mul event

/-- Embeds `Bayes.update_from_events` (src/bayesian/__init__.py lines
229-239): for each event, update with the matching row of the table when the event is
a key of the table, otherwise skip silently. -/
def Bayes.update_from_events (self : Bayes) (events : List String)
    (events_odds : List (String × OddsLike)) : Option Bayes :=
  events.foldlM
    (fun s e =>
      match (events_odds.find? (fun p => p.1 == e)).map (fun p => p.2) with
      | some row => s.update row
      | none => some s)
    self

/-- Embeds `Bayes.update_from_tests` (src/bayesian/__init__.py lines
241-254, src/bayes.py lines 107-120): `zip` the test results with the
odds rows (truncating to the shorter sequence), updating with the row on
a true result and with the opposite of the row on a false one. -/
def Bayes.update_from_tests (self : Bayes) (tests_results : List Bool)
    (odds : List OddsLike) : Option Bayes :=
  (tests_results.zip odds).foldlM
    (fun s rc =>
      if rc.1 then s.update rc.2
      else do
        let c ← s.cast rc.2
        s.update (OddsLike.vector c.opposite))
    self

/-- The Python builtin `max` over a list: raises (`none`) on an empty list. -/
def listMax : List ℚ → Option ℚ
  | [] => none
  | x :: xs => some (xs.foldl max x)

/-- The Python method `list.index`: position of the first occurrence. -/
def indexOfQ (x : ℚ) : List ℚ → ℕ
  | [] => 0
  | y :: ys => if y = x then 0 else indexOfQ x ys + 1

/-- Embeds `Bayes.most_likely` (src/bayesian/__init__.py lines 256-269,
src/bayes.py lines 122-135): normalize, take the maximum, and when it is
strictly above the cutoff return the label at the first index attaining
it, otherwise return the Python `None` (here `some none`).  The outer
`Option` is failure (zero-sum normalization or `max` of an empty list). -/
def Bayes.most_likely (self : Bayes) (cutoff : ℚ := 0) : Option (Option String) := do
  let n ← self.normalized
  match listMax n.weights with
  | none => none
  | some mx =>
    if cutoff < mx then (self.labels.get? (indexOfQ mx n.weights)).map some
    else some none

/-- The smoothing constant `small = 0.000001` of `extract_events_odds`
(src/bayesian/__init__.py line 131). -/
def small : ℚ := 1 / 1000000

/-- The stream of `(event, class)` occurrences that
`extract_events_odds` iterates over: for every class, for every
instance, every extracted event paired with the class. -/
def eventClassPairs (classes_instances : List (String × List String))
    (event_extractor : String → List String) : List (String × String) :=
  classes_instances.flatMap
    (fun p => (p.2.flatMap event_extractor).map (fun e => (e, p.1)))

/-- Embeds `Bayes.extract_events_odds` (src/bayesian/__init__.py lines
121-138).  The nested `defaultdict` is modelled by its lookup function:
every `(event, class)` cell starts at `small` and
`events_odds[event][class_] += 1` bumps it once per occurrence. -/
def extract_events_odds (classes_instances : List (String × List String))
    (event_extractor : String → List String) : String → String → ℚ :=
  (eventClassPairs classes_instances event_extractor).foldl
    (fun tbl ec => fun e c => if e = ec.1 ∧ c = ec.2 then tbl e c + 1 else tbl e c)
    (fun _ _ => small)

/-- Number of occurrences of event `e` among the instances of class `c`:
the specification-level count that the table is claimed to hold. -/
def occCount (classes_instances : List (String × List String))
    (event_extractor : String → List String) (e c : String) : ℕ :=
  (classes_instances.map
    (fun p => if p.1 = c then (p.2.flatMap event_extractor).count e else 0)).sum

/-- Embeds `gaussian_probability` (src/bayesian/__init__.py lines
68-82): the normal density of `sample` under `(mean, variance)`, with
the degenerate branch returning 1 at the mean and 0 elsewhere when the
variance is zero. -/
noncomputable def gaussian_probability (sample : ℝ) (distribution : ℝ × ℝ) : ℝ :=
  let mean := distribution.1
  let variance := distribution.2
  if variance = 0 then (if sample ≠ mean then 0 else 1)
  else Real.exp ((sample - mean) ^ 2 / (-2 * variance)) / Real.sqrt (2 * Real.pi * variance)

/-- Sequential application of the non-normalizing update of src/bayes.py. -/
def runRaw (v : Bayes) (rows : List OddsLike) : Option Bayes :=
  rows.foldlM Bayes.update_raw v

/-- Sequential application of the normalizing update of
src/bayesian/__init__.py. -/
def runNorm (v : Bayes) (rows : List OddsLike) : Option Bayes :=
  rows.foldlM Bayes.update v

/-- A weight list with no zero entry has no zero member. -/
theorem not_zero_mem_of_all_ne {ws : List ℚ} (h : ∀ w ∈ ws, w ≠ 0) : (0 : ℚ) ∉ ws :=
  fun hm => h 0 hm rfl

/-- C1: `opposite` keeps the labels; when some weight is exactly zero it
maps every zero weight to 1 and every non-zero weight to 0, and when all
weights are non-zero it maps every weight to its reciprocal. -/
theorem opposite_rule (b : Bayes) :
    b.opposite.labels = b.labels ∧
    ((∃ w ∈ b.weights, w = 0) →
      b.opposite.weights = b.weights.map (fun w => if w = 0 then 1 else 0)) ∧
    ((∀ w ∈ b.weights, w ≠ 0) →
      b.opposite.weights = b.weights.map (fun w => 1 / w)) := by
  refine ⟨?_, ?_, ?_⟩
  · unfold Bayes.opposite
    split <;> rfl
  · intro h
    obtain ⟨w, hw, hw0⟩ := h
    unfold Bayes.opposite
    rw [if_pos (hw0 ▸ hw)]
  · intro h
    unfold Bayes.opposite
    rw [if_neg (not_zero_mem_of_all_ne h)]

/-- Witness for C1: both branches of `opposite_rule` evaluated on
concrete vectors. -/
theorem opposite_rule_witness :
    (Bayes.opposite ⟨["a", "b"], [0, 2]⟩).weights = [1, 0] ∧
    (Bayes.opposite ⟨["a", "b"], [2, 4]⟩).weights = [1 / 2, 1 / 4] := by
  constructor
  · rw [(opposite_rule ⟨["a", "b"], [0, 2]⟩).2.1 ⟨0, by decide, rfl⟩]
    decide
  · rw [(opposite_rule ⟨["a", "b"], [2, 4]⟩).2.2 (by decide)]
    norm_num

/-- C7: on a vector with all-nonzero weights, `opposite` is an
involution: applying it twice returns the original vector, labels and
weights alike. -/
theorem opposite_involutive (b : Bayes) (h : ∀ w ∈ b.weights, w ≠ 0) :
    b.opposite.opposite = b := by
  cases b with
  | mk ls ws =>
    unfold Bayes.opposite
    rw [if_neg (not_zero_mem_of_all_ne h)]
    have h0 : (0 : ℚ) ∉ ws.map (fun i => 1 / i) := by
      intro hm
      obtain ⟨a, ha, ha0⟩ := List.mem_map.mp hm
      exact one_div_ne_zero (h a ha) ha0
    simp only [if_neg h0]
    congr 1
    rw [List.map_map]
    have hcomp : ((fun i => 1 / i : ℚ → ℚ) ∘ fun i => 1 / i) = id :=
      funext fun a => one_div_one_div a
    rw [hcomp, List.map_id]

/-- Witness for C7: the double opposite of a concrete all-nonzero
vector. -/
theorem opposite_involutive_witness :
    (Bayes.opposite (Bayes.opposite ⟨["a", "b"], [2, 4]⟩)) = ⟨["a", "b"], [2, 4]⟩ :=
  opposite_involutive ⟨["a", "b"], [2, 4]⟩ (by decide)

/-- Counterexample for C8: the empty belief vector has weight sum zero,
yet `normalized` succeeds and returns the empty vector (the Python
generator performs no division). -/
theorem normalized_zero_sum_counterexample :
    (⟨[], []⟩ : Bayes).weights.sum = 0 ∧
    Bayes.normalized ⟨[], []⟩ = some ⟨[], []⟩ := by
  constructor
  · rfl
  · simp [Bayes.normalized]

/-- C8 (amended): on a vector with at least one weight whose sum is
zero, `normalized` fails; the empty vector alone is returned unchanged
without an error. -/
theorem normalized_zero_sum (b : Bayes) :
    (b.weights ≠ [] → b.weights.sum = 0 → b.normalized = none) ∧
    (b.weights = [] → b.normalized = some ⟨b.labels, []⟩) := by
  constructor
  · intro hne hz
    simp [Bayes.normalized, hz, hne]
  · intro he
    simp [Bayes.normalized, he]

/-- Witness for C8: a concrete all-zero two-entry vector fails to
normalize. -/
theorem normalized_zero_sum_witness :
    Bayes.normalized ⟨["a", "b"], [0, 0]⟩ = none :=
  (normalized_zero_sum ⟨["a", "b"], [0, 0]⟩).1 (by decide) (by norm_num)

/-- Counterexample for C4: casting a `Bayes` input that carries a
different label set returns that input unchanged, with its own labels
rather than the labels of `self`. -/
theorem cast_labels_counterexample :
    Bayes.cast ⟨["a", "b"], [1, 2]⟩ (OddsLike.vector ⟨["x", "y"], [3, 4]⟩)
        = some ⟨["x", "y"], [3, 4]⟩ ∧
      (["x", "y"] : List String) ≠ ["a", "b"] :=
  ⟨rfl, by decide⟩

/-- C4 (amended): `cast` of a bare sequence yields a vector with the
labels of `self` when `self` has at least one label, and with
stringified positional index labels when the labels of `self` are empty
(the falsy-list constructor fallback); `cast` of a mapping when `self`
has at least one label also keeps the labels of `self`; but `cast` of
another belief vector returns that vector unchanged, keeping its own
labels. -/
theorem cast_labels (self : Bayes) :
    (∀ ws, self.labels ≠ [] →
      (self.cast (OddsLike.seq ws)).map Bayes.labels = some self.labels) ∧
    (∀ ws, self.labels = [] →
      (self.cast (OddsLike.seq ws)).map Bayes.labels = some (defaultLabels ws.length)) ∧
    (∀ m r, self.labels ≠ [] → self.cast (OddsLike.mapping m) = some r →
      r.labels = self.labels) ∧
    (∀ b, self.cast (OddsLike.vector b) = some b) := by
  refine ⟨?_, ?_, ?_, fun b => rfl⟩
  · intro ws hne
    show Option.map Bayes.labels
        (some ⟨if self.labels = [] then defaultLabels ws.length else self.labels, ws⟩)
      = some self.labels
    rw [if_neg hne]
    rfl
  · intro ws he
    show Option.map Bayes.labels
        (some ⟨if self.labels = [] then defaultLabels ws.length else self.labels, ws⟩)
      = some (defaultLabels ws.length)
    rw [if_pos he]
    rfl
  · intro m r hne hc
    unfold Bayes.cast at hc
    simp only [if_neg hne] at hc
    obtain ⟨ws, hws, hr⟩ := Option.map_eq_some'.mp hc
    rw [← hr]

/-- Witness for C4: casting a mapping against a one-label vector keeps
that label, and casting a bare sequence from an empty-labels vector
yields the positional index labels. -/
theorem cast_labels_witness :
    ((⟨["a"], [5]⟩ : Bayes).labels = ["a"] ∧
      Bayes.cast ⟨["a"], [1]⟩ (OddsLike.mapping [("a", 5)]) = some ⟨["a"], [5]⟩) ∧
    (Bayes.cast ⟨[], []⟩ (OddsLike.seq [7])).map Bayes.labels = some (defaultLabels 1) :=
  ⟨⟨(cast_labels ⟨["a"], [1]⟩).2.2.1 [("a", 5)] ⟨["a"], [5]⟩ (by decide) rfl, rfl⟩,
    (cast_labels ⟨[], []⟩).2.1 [7] rfl⟩

/-- Zipping truncates both lists to the common length. -/
theorem zip_take_eq {α β : Type} :
    ∀ (l1 : List α) (l2 : List β),
      l1.zip l2 = (l1.take l2.length).zip (l2.take l1.length)
  | [], l2 => by simp
  | a :: t, [] => by simp
  | a :: t, b :: s => by
    simp only [List.zip_cons_cons, List.length_cons, List.take_succ_cons]
    rw [← zip_take_eq t s]

/-- Counterexample for C3: two test results paired with a single odds
row do not fail; the call silently processes one pair and succeeds. -/
theorem update_from_tests_mismatch_counterexample :
    Bayes.update_from_tests ⟨["a", "b"], [1, 1]⟩ [true, true] [OddsLike.seq [1, 1]]
      = some ⟨["a", "b"], [1 / 2, 1 / 2]⟩ := by
  simp [Bayes.update_from_tests, Bayes.update, Bayes.mul, Bayes.cast, Bayes.normalized]
  norm_num

/-- C3 (amended): `update_from_tests` silently truncates to the shorter
of the two sequences — its result is exactly the result on the two
sequences cut to the common length; no length-mismatch failure exists. -/
theorem update_from_tests_truncates (b : Bayes) (tests_results : List Bool)
    (odds : List OddsLike) :
    b.update_from_tests tests_results odds
      = b.update_from_tests (tests_results.take odds.length)
          (odds.take tests_results.length) := by
  unfold Bayes.update_from_tests
  rw [← zip_take_eq]

/-- C9: the Gaussian likelihood under a zero-variance distribution is 1
exactly at the mean and 0 elsewhere. -/
theorem gaussian_probability_degenerate (sample mean : ℝ) :
    gaussian_probability sample (mean, 0) = if sample = mean then 1 else 0 := by
  unfold gaussian_probability
  rw [if_pos rfl]
  by_cases h : sample = mean
  · rw [if_neg (fun hn => hn h), if_pos h]
  · rw [if_pos h, if_neg h]

/-- Normalization keeps the labels. -/
theorem normalized_labels {b b' : Bayes} (h : b.normalized = some b') :
    b'.labels = b.labels := by
  unfold Bayes.normalized at h
  split at h
  · cases h
  · injection h with h
    rw [← h]

/-- Elementwise multiplication keeps the labels of `self`. -/
theorem mul_labels {b b' : Bayes} {e : OddsLike} (h : b.mul e = some b') :
    b'.labels = b.labels := by
  unfold Bayes.mul at h
  cases hc : b.cast e with
  | none => rw [hc] at h; cases h
  | some o =>
    rw [hc] at h
    injection h with h
    rw [← h]

/-- The normalizing update keeps the labels. -/
theorem update_labels {b b' : Bayes} {e : OddsLike} (h : b.update e = some b') :
    b'.labels = b.labels := by
  unfold Bayes.update at h
  cases hm : b.mul e with
  | none => rw [hm] at h; cases h
  | some p =>
    rw [hm] at h
    exact (normalized_labels h).trans (mul_labels hm)

/-- A fold of label-preserving steps preserves the labels. -/
theorem foldlM_labels {α : Type} (f : Bayes → α → Option Bayes)
    (hf : ∀ s a s', f s a = some s' → s'.labels = s.labels) :
    ∀ (l : List α) (b b' : Bayes), l.foldlM f b = some b' → b'.labels = b.labels := by
  intro l
  induction l with
  | nil =>
    intro b b' h
    injection h with h
    rw [h]
  | cons a t ih =>
    intro b b' h
    rw [List.foldlM_cons] at h
    cases hs : f b a with
    | none => rw [hs] at h; exact Option.noConfusion h
    | some s =>
      rw [hs] at h
      exact (ih s b' h).trans (hf b a s hs)

/-- C10: on every input on which the call succeeds, `update`,
`update_from_events` and `update_from_tests` leave the label
sequence of the vector unchanged. -/
theorem update_ops_preserve_labels (b : Bayes) :
    (∀ e b', b.update e = some b' → b'.labels = b.labels) ∧
    (∀ events tbl b', b.update_from_events events tbl = some b' →
      b'.labels = b.labels) ∧
    (∀ rs odds b', b.update_from_tests rs odds = some b' →
      b'.labels = b.labels) := by
  refine ⟨fun e b' h => update_labels h, ?_, ?_⟩
  · intro events tbl b' h
    refine foldlM_labels _ ?_ events b b' h
    intro s a s' hs
    have hs' : (match (tbl.find? (fun p => p.1 == a)).map (fun p => p.2) with
        | some row => s.update row
        | none => some s) = some s' := hs
    cases hfind : (tbl.find? (fun p => p.1 == a)).map (fun p => p.2) with
    | none =>
      rw [hfind] at hs'
      injection hs' with h2
      rw [← h2]
    | some row =>
      rw [hfind] at hs'
      exact update_labels hs'
  · intro rs odds b' h
    refine foldlM_labels _ ?_ (rs.zip odds) b b' h
    intro s a s' hs
    obtain ⟨r, ch⟩ := a
    have hs' : (if r then s.update ch
        else s.cast ch >>= fun c => s.update (OddsLike.vector c.opposite)) = some s' := hs
    cases r
    · rw [if_neg Bool.false_ne_true] at hs'
      cases hc : s.cast ch with
      | none => rw [hc] at hs'; exact Option.noConfusion hs'
      | some c =>
        rw [hc] at hs'
        have hs'' : s.update (OddsLike.vector c.opposite) = some s' := hs'
        exact update_labels hs''
    · rw [if_pos rfl] at hs'
      exact update_labels hs'

/-- Witness for C10: a concrete successful `update` keeps the labels. -/
theorem update_ops_preserve_labels_witness :
    Bayes.update ⟨["a", "b"], [1, 3]⟩ (OddsLike.seq [1, 1])
        = some ⟨["a", "b"], [1 / 4, 3 / 4]⟩ ∧
      (⟨["a", "b"], [1 / 4, 3 / 4]⟩ : Bayes).labels
        = (⟨["a", "b"], [1, 3]⟩ : Bayes).labels := by
  have hupd : Bayes.update ⟨["a", "b"], [1, 3]⟩ (OddsLike.seq [1, 1])
      = some ⟨["a", "b"], [1 / 4, 3 / 4]⟩ := by
    simp [Bayes.update, Bayes.mul, Bayes.cast, Bayes.normalized]
    norm_num
  exact ⟨hupd, (update_ops_preserve_labels ⟨["a", "b"], [1, 3]⟩).1 _ _ hupd⟩

/-- Each fold step of `extract_events_odds` bumps exactly the matching
cell, so the final cell value is the initial value plus the number of
matching occurrence pairs. -/
theorem extract_foldl_entry :
    ∀ (pairs : List (String × String)) (f : String → String → ℚ) (e c : String),
      (pairs.foldl
          (fun tbl ec => fun x y => if x = ec.1 ∧ y = ec.2 then tbl x y + 1 else tbl x y)
          f) e c
        = f e c + pairs.countP (fun ec => decide (e = ec.1 ∧ c = ec.2))
  | [], f, e, c => by simp
  | p :: t, f, e, c => by
    rw [List.foldl_cons, extract_foldl_entry t, List.countP_cons]
    by_cases hp : e = p.1 ∧ c = p.2
    · rw [if_pos hp, decide_eq_true hp, if_pos rfl]
      push_cast
      ring
    · rw [if_neg hp, decide_eq_false hp, if_neg Bool.false_ne_true]
      simp

/-- Counting matching pairs in the occurrence stream equals the
per-class occurrence count. -/
theorem countP_eventClassPairs (ci : List (String × List String))
    (ext : String → List String) (e c : String) :
    (eventClassPairs ci ext).countP (fun ec => decide (e = ec.1 ∧ c = ec.2))
      = occCount ci ext e c := by
  unfold eventClassPairs occCount
  induction ci with
  | nil => simp
  | cons p t ih =>
    rw [List.flatMap_cons, List.countP_append, ih, List.map_cons, List.sum_cons]
    congr 1
    rw [List.countP_map]
    by_cases hc2 : p.1 = c
    · rw [if_pos hc2]
      subst hc2
      rw [List.count_eq_countP]
      refine List.countP_congr ?_
      intro x hx
      simp only [Function.comp_apply, decide_eq_true_eq, beq_iff_eq]
      constructor
      · rintro ⟨h1, h2⟩
        exact h1.symm
      · intro h
        exact ⟨h.symm, trivial⟩
    · rw [if_neg hc2]
      refine List.countP_eq_zero.mpr ?_
      intro x hx
      simp only [Function.comp_apply, decide_eq_true_eq, not_and]
      intro _ hcc
      exact hc2 hcc.symm

/-- Counterexample for C5: a single observed `(event, class)` pair is
stored as count-plus-smoothing, `1 + 1e-6`, not as its occurrence count
`1`. -/
theorem extract_events_odds_counterexample :
    extract_events_odds [("c", ["w"])] (fun s => [s]) "w" "c" = small + 1 ∧
    extract_events_odds [("c", ["w"])] (fun s => [s]) "w" "c" ≠ 1 := by
  have h : extract_events_odds [("c", ["w"])] (fun s => [s]) "w" "c" = small + 1 := by
    unfold extract_events_odds
    rw [extract_foldl_entry]
    have hcount : (eventClassPairs [("c", ["w"])] (fun s => [s])).countP
        (fun ec => decide ("w" = ec.1 ∧ "c" = ec.2)) = 1 := by decide
    rw [hcount]
    norm_num
  refine ⟨h, ?_⟩
  rw [h]
  norm_num [small]

/-- C5 (amended): every cell of the table equals the smoothing constant
`1e-6` plus the occurrence count of that `(event, class)` pair; a
never-observed pair therefore reads exactly `1e-6`, and every cell is
strictly positive. -/
theorem extract_events_odds_entries (ci : List (String × List String))
    (ext : String → List String) (e c : String) :
    extract_events_odds ci ext e c = small + occCount ci ext e c ∧
    (occCount ci ext e c = 0 → extract_events_odds ci ext e c = small) ∧
    0 < extract_events_odds ci ext e c := by
  have h : extract_events_odds ci ext e c = small + occCount ci ext e c := by
    unfold extract_events_odds
    rw [extract_foldl_entry, countP_eventClassPairs]
  refine ⟨h, ?_, ?_⟩
  · intro h0
    rw [h, h0]
    simp
  · rw [h]
    have hsmall : (0 : ℚ) < small := by norm_num [small]
    have hcast : (0 : ℚ) ≤ (occCount ci ext e c : ℚ) := Nat.cast_nonneg _
    linarith

/-- Witness for C5: a never-observed pair reads exactly the smoothing
constant. -/
theorem extract_events_odds_entries_witness :
    extract_events_odds [("c", ["w"])] (fun s => [s]) "x" "c" = small :=
  (extract_events_odds_entries [("c", ["w"])] (fun s => [s]) "x" "c").2.1 (by decide)

/-- The normalized weight list: every weight divided by the total. -/
def normWeights (b : Bayes) : List ℚ :=
  b.weights.map (fun i => i / b.weights.sum)

/-- A left fold of `max` bounds the seed and every element. -/
theorem foldl_max_le (l : List ℚ) :
    ∀ x : ℚ, x ≤ l.foldl max x ∧ ∀ a ∈ l, a ≤ l.foldl max x := by
  induction l with
  | nil =>
    intro x
    exact ⟨le_refl x, by simp⟩
  | cons y t ih =>
    intro x
    rw [List.foldl_cons]
    obtain ⟨h1, h2⟩ := ih (max x y)
    refine ⟨le_trans (le_max_left x y) h1, ?_⟩
    intro a ha
    rcases List.mem_cons.mp ha with h | h
    · rw [h]
      exact le_trans (le_max_right x y) h1
    · exact h2 a h

/-- A left fold of `max` is the seed or one of the elements. -/
theorem foldl_max_mem (l : List ℚ) :
    ∀ x : ℚ, l.foldl max x = x ∨ l.foldl max x ∈ l := by
  induction l with
  | nil =>
    intro x
    left
    rfl
  | cons y t ih =>
    intro x
    rw [List.foldl_cons]
    rcases ih (max x y) with h | h
    · rcases max_choice x y with hm | hm
      · left
        rw [h, hm]
      · right
        rw [h, hm]
        exact List.mem_cons_self y t
    · right
      exact List.mem_cons_of_mem y h

/-- `listMax` returns an element that bounds the whole list. -/
theorem listMax_spec {l : List ℚ} {m : ℚ} (h : listMax l = some m) :
    m ∈ l ∧ ∀ a ∈ l, a ≤ m := by
  cases l with
  | nil => cases h
  | cons x xs =>
    unfold listMax at h
    injection h with h
    rw [← h]
    constructor
    · rcases foldl_max_mem xs x with h2 | h2
      · rw [h2]
        exact List.mem_cons_self x xs
      · exact List.mem_cons_of_mem x h2
    · intro a ha
      rcases List.mem_cons.mp ha with h2 | h2
      · rw [h2]
        exact (foldl_max_le xs x).1
      · exact (foldl_max_le xs x).2 a h2

/-- On a member, `indexOfQ` returns the first position holding it. -/
theorem indexOfQ_spec :
    ∀ (l : List ℚ) (x : ℚ), x ∈ l →
      indexOfQ x l < l.length ∧ l.getD (indexOfQ x l) 0 = x ∧
        ∀ j < indexOfQ x l, l.getD j 0 ≠ x := by
  intro l
  induction l with
  | nil =>
    intro x hx
    cases hx
  | cons y t ih =>
    intro x hx
    unfold indexOfQ
    by_cases hy : y = x
    · rw [if_pos hy]
      exact ⟨Nat.succ_pos _, hy, fun j hj => absurd hj (Nat.not_lt_zero j)⟩
    · rw [if_neg hy]
      have hxm : x ∈ t := by
        rcases List.mem_cons.mp hx with h | h
        · exact absurd h.symm hy
        · exact h
      obtain ⟨h1, h2, h3⟩ := ih x hxm
      refine ⟨Nat.succ_lt_succ h1, h2, ?_⟩
      intro j hj
      cases j with
      | zero =>
        intro hc
        exact hy hc
      | succ j2 =>
        exact h3 j2 (Nat.lt_of_succ_lt_succ hj)

/-- A valid position turns `get?` into `some` of the `getD` value. -/
theorem get?_eq_some_getD {α : Type} (d : α) :
    ∀ (l : List α) (i : ℕ), i < l.length → l.get? i = some (l.getD i d) := by
  intro l
  induction l with
  | nil =>
    intro i hi
    exact absurd hi (Nat.not_lt_zero i)
  | cons y t ih =>
    intro i hi
    cases i with
    | zero => rfl
    | succ i2 => exact ih i2 (Nat.lt_of_succ_lt_succ hi)

/-- A `getD` at a valid position is a member of the list. -/
theorem getD_mem {α : Type} (d : α) :
    ∀ (l : List α) (i : ℕ), i < l.length → l.getD i d ∈ l := by
  intro l
  induction l with
  | nil =>
    intro i hi
    exact absurd hi (Nat.not_lt_zero i)
  | cons y t ih =>
    intro i hi
    cases i with
    | zero => exact List.mem_cons_self y t
    | succ i2 => exact List.mem_cons_of_mem y (ih i2 (Nat.lt_of_succ_lt_succ hi))

/-- C2: on a belief vector with positive weight sum, `most_likely`
returns the explicit none result when every normalized weight is at most
the cutoff; otherwise it returns the label at a position carrying the
maximal normalized weight, and every earlier position carries a strictly
smaller normalized weight (the earliest maximal label in insertion
order). -/
theorem most_likely_correct (b : Bayes) (cutoff : ℚ)
    (hsum : 0 < b.weights.sum) (hlen : b.labels.length = b.weights.length) :
    ((∀ w ∈ normWeights b, w ≤ cutoff) → b.most_likely cutoff = some none) ∧
    ((∃ w ∈ normWeights b, cutoff < w) →
      ∃ i, i < b.labels.length ∧
        b.most_likely cutoff = some (some (b.labels.getD i "")) ∧
        (∀ w ∈ normWeights b, w ≤ (normWeights b).getD i 0) ∧
        (∀ j < i, (normWeights b).getD j 0 < (normWeights b).getD i 0)) := by
  have hne : b.weights ≠ [] := by
    intro h
    rw [h] at hsum
    simp at hsum
  have hnorm : b.normalized = some ⟨b.labels, normWeights b⟩ := by
    unfold Bayes.normalized normWeights
    rw [if_neg (fun hq => hsum.ne' hq.1)]
  have hnne : normWeights b ≠ [] := by
    unfold normWeights
    simpa using hne
  obtain ⟨mx, hmx⟩ : ∃ mx, listMax (normWeights b) = some mx := by
    rcases hl : normWeights b with _ | ⟨x, xs⟩
    · exact absurd hl hnne
    · exact ⟨xs.foldl max x, rfl⟩
  obtain ⟨hmem, hle⟩ := listMax_spec hmx
  constructor
  · intro hall
    have hcle : mx ≤ cutoff := hall mx hmem
    unfold Bayes.most_likely
    rw [hnorm]
    show (match listMax (normWeights b) with
      | none => (none : Option (Option String))
      | some m =>
        if cutoff < m then (b.labels.get? (indexOfQ m (normWeights b))).map some
        else some none) = some none
    rw [hmx]
    exact if_neg (not_lt.mpr hcle)
  · intro hex
    obtain ⟨w, hwmem, hcw⟩ := hex
    have hclt : cutoff < mx := lt_of_lt_of_le hcw (hle w hwmem)
    obtain ⟨hilt, hieq, hiearlier⟩ := indexOfQ_spec (normWeights b) mx hmem
    have hlenn : (normWeights b).length = b.weights.length := by
      unfold normWeights
      simp
    have hilab : indexOfQ mx (normWeights b) < b.labels.length := by
      rw [hlen, ← hlenn]
      exact hilt
    refine ⟨indexOfQ mx (normWeights b), hilab, ?_, ?_, ?_⟩
    · unfold Bayes.most_likely
      rw [hnorm]
      show (match listMax (normWeights b) with
        | none => (none : Option (Option String))
        | some m =>
          if cutoff < m then (b.labels.get? (indexOfQ m (normWeights b))).map some
          else some none) = some (some (b.labels.getD (indexOfQ mx (normWeights b)) ""))
      rw [hmx]
      show (if cutoff < mx then (b.labels.get? (indexOfQ mx (normWeights b))).map some
        else some none) = some (some (b.labels.getD (indexOfQ mx (normWeights b)) ""))
      rw [if_pos hclt, get?_eq_some_getD "" b.labels _ hilab]
      rfl
    · intro w2 hw2
      rw [hieq]
      exact hle w2 hw2
    · intro j hj
      have hjlt : j < (normWeights b).length := lt_trans hj hilt
      rw [hieq]
      exact lt_of_le_of_ne (hle _ (getD_mem 0 _ j hjlt)) (hiearlier j hj)

/-- Witness for C2: a concrete vector whose maximum normalized weight is
at most the cutoff yields the explicit none result. -/
theorem most_likely_correct_witness :
    Bayes.most_likely ⟨["a", "b"], [1, 3]⟩ 1 = some none := by
  refine (most_likely_correct ⟨["a", "b"], [1, 3]⟩ 1 (by norm_num) rfl).1 ?_
  intro w hw
  norm_num [normWeights] at hw
  rcases hw with h | h <;> rw [h] <;> norm_num

/-- Multiplying a list by a constant before zipping is the same as
multiplying the zipped products. -/
theorem zipWith_mul_map_left (c : ℚ) :
    ∀ l1 l2 : List ℚ,
      List.zipWith (· * ·) (l1.map (fun x => c * x)) l2
        = (List.zipWith (· * ·) l1 l2).map (fun x => c * x)
  | [], l2 => by simp
  | x :: t, [] => by simp
  | x :: t, y :: s => by
    rw [List.map_cons, List.zipWith_cons_cons, List.zipWith_cons_cons, List.map_cons,
      zipWith_mul_map_left c t s]
    congr 1
    ring

/-- The sum of a list scaled by a constant is the scaled sum. -/
theorem sum_map_mul (c : ℚ) : ∀ l : List ℚ, (l.map (fun x => c * x)).sum = c * l.sum
  | [] => by simp
  | x :: t => by
    rw [List.map_cons, List.sum_cons, List.sum_cons, sum_map_mul c t, mul_add]

/-- `cast` depends on `self` only through its labels. -/
theorem cast_only_labels (v w : Bayes) (h : w.labels = v.labels) (e : OddsLike) :
    w.cast e = v.cast e := by
  cases e with
  | vector b => rfl
  | seq ws =>
    unfold Bayes.cast
    rw [h]
  | mapping m =>
    unfold Bayes.cast
    rw [h]

/-- Multiplying from a state scaled by `c` scales the product by `c`. -/
theorem mul_scaled {c : ℚ} {v w : Bayes} (hlab : w.labels = v.labels)
    (hw : w.weights = v.weights.map (fun x => c * x)) (e : OddsLike) :
    w.mul e = (v.mul e).map (fun p => ⟨p.labels, p.weights.map (fun x => c * x)⟩) := by
  unfold Bayes.mul
  rw [cast_only_labels v w hlab e]
  cases hc : v.cast e with
  | none => rfl
  | some o =>
    simp only [Option.map_some']
    refine congrArg some ?_
    rw [Bayes.mk.injEq]
    constructor
    · exact hlab
    · rw [hw]
      exact zipWith_mul_map_left c v.weights o.weights

/-- Normalization on a vector with non-zero weight sum succeeds and
divides every weight by the sum. -/
theorem normalized_of_sum_ne (b : Bayes) (h : b.weights.sum ≠ 0) :
    b.normalized = some ⟨b.labels, b.weights.map (fun i => i / b.weights.sum)⟩ := by
  unfold Bayes.normalized
  rw [if_neg (fun hq => h hq.1)]

/-- One normalizing update from a positively-scaled state lands on the
raw product normalized by its own sum. -/
theorem update_of_scaled {v w p1 : Bayes} {c : ℚ} (hc : 0 < c)
    (hlab : w.labels = v.labels) (hw : w.weights = v.weights.map (fun x => c * x))
    {e : OddsLike} (hp1 : v.mul e = some p1) (hS : 0 < p1.weights.sum) :
    w.update e = some ⟨p1.labels, p1.weights.map (fun x => 1 / p1.weights.sum * x)⟩ := by
  unfold Bayes.update
  rw [mul_scaled hlab hw e, hp1]
  show Bayes.normalized ⟨p1.labels, p1.weights.map (fun x => c * x)⟩
      = some ⟨p1.labels, p1.weights.map (fun x => 1 / p1.weights.sum * x)⟩
  have hsum : (p1.weights.map (fun x => c * x)).sum = c * p1.weights.sum :=
    sum_map_mul c p1.weights
  have hne : (⟨p1.labels, p1.weights.map (fun x => c * x)⟩ : Bayes).weights.sum ≠ 0 := by
    show (p1.weights.map (fun x => c * x)).sum ≠ 0
    rw [hsum]
    exact mul_ne_zero hc.ne' hS.ne'
  rw [normalized_of_sum_ne _ hne]
  refine congrArg some ?_
  rw [Bayes.mk.injEq]
  refine ⟨rfl, ?_⟩
  show (p1.weights.map (fun x => c * x)).map
      (fun i => i / (p1.weights.map (fun x => c * x)).sum)
    = p1.weights.map (fun x => 1 / p1.weights.sum * x)
  rw [List.map_map, hsum]
  refine List.map_congr_left ?_
  intro a ha
  show c * a / (c * p1.weights.sum) = 1 / p1.weights.sum * a
  rw [mul_div_mul_left a p1.weights.sum hc.ne', one_div_mul_eq_div]

/-- `most_likely` only looks at the normalized vector and the labels. -/
theorem most_likely_congr (x y : Bayes) (hl : x.labels = y.labels)
    (hn : x.normalized = y.normalized) (cutoff : ℚ) :
    x.most_likely cutoff = y.most_likely cutoff := by
  unfold Bayes.most_likely
  rw [hn, hl]

/-- Invariant of the refinement: running the normalizing updates from a
positively-scaled copy of the raw state tracks the raw run up to a
positive scale factor, and ends with weight sum 1 when at least one
update ran. -/
theorem run_scaled :
    ∀ (rows : List OddsLike) (v w : Bayes) (c : ℚ),
      0 < c → w.labels = v.labels → w.weights = v.weights.map (fun x => c * x) →
      ∀ final, runRaw v rows = some final →
      (∀ n b, runRaw v (rows.take n) = some b → 0 < b.weights.sum) →
      ∃ nfinal c2, runNorm w rows = some nfinal ∧ 0 < c2 ∧
        nfinal.labels = final.labels ∧
        nfinal.weights = final.weights.map (fun x => c2 * x) ∧
        (rows ≠ [] → nfinal.weights.sum = 1) := by
  intro rows
  induction rows with
  | nil =>
    intro v w c hc hlab hw final hrun hpos
    have hfv : final = v := by
      unfold runRaw at hrun
      injection hrun with h
      exact h.symm
    refine ⟨w, c, rfl, hc, ?_, ?_, ?_⟩
    · rw [hfv]
      exact hlab
    · rw [hfv]
      exact hw
    · intro h
      exact absurd rfl h
  | cons e rest ih =>
    intro v w c hc hlab hw final hrun hpos
    cases hp1 : v.update_raw e with
    | none =>
      exfalso
      unfold runRaw at hrun
      rw [List.foldlM_cons, hp1] at hrun
      exact Option.noConfusion hrun
    | some p1 =>
      have hrest : runRaw p1 rest = some final := by
        unfold runRaw at hrun
        rw [List.foldlM_cons, hp1] at hrun
        exact hrun
      have hS1 : 0 < p1.weights.sum := by
        apply hpos 1 p1
        show runRaw v [e] = some p1
        unfold runRaw
        rw [List.foldlM_cons, hp1]
        rfl
      have hp1m : v.mul e = some p1 := hp1
      have hq1 : w.update e
          = some ⟨p1.labels, p1.weights.map (fun x => 1 / p1.weights.sum * x)⟩ :=
        update_of_scaled hc hlab hw hp1m hS1
      have hposr : ∀ n b, runRaw p1 (rest.take n) = some b → 0 < b.weights.sum := by
        intro n b hb
        apply hpos (n + 1) b
        show runRaw v (e :: rest.take n) = some b
        unfold runRaw
        rw [List.foldlM_cons, hp1]
        exact hb
      obtain ⟨nfinal, c2, hrunN, hc2, hl2, hw2, hsum1⟩ :=
        ih p1 ⟨p1.labels, p1.weights.map (fun x => 1 / p1.weights.sum * x)⟩
          (1 / p1.weights.sum) (one_div_pos.mpr hS1) rfl rfl final hrest hposr
      refine ⟨nfinal, c2, ?_, hc2, hl2, hw2, ?_⟩
      · unfold runNorm
        rw [List.foldlM_cons, hq1]
        exact hrunN
      · intro h2
        by_cases hrest0 : rest = []
        · subst hrest0
          unfold runNorm at hrunN
          injection hrunN with h3
          rw [← h3]
          show (p1.weights.map (fun x => 1 / p1.weights.sum * x)).sum = 1
          rw [sum_map_mul]
          exact one_div_mul_cancel hS1.ne'
        · exact hsum1 hrest0

/-- C6: starting from the same vector, when every intermediate raw
product has a positive weight sum, the non-normalizing update variant of
src/bayes.py followed by one normalization agrees with the normalizing
update variant of src/bayesian/__init__.py: the two final vectors have
identical normalized weights (and, for at least one update, the
normalizing run is exactly the normalized raw run), so `most_likely`
answers identically on both. -/
theorem update_variants_agree (v : Bayes) (rows : List OddsLike) (final : Bayes)
    (hrun : runRaw v rows = some final)
    (hpos : ∀ n b, runRaw v (rows.take n) = some b → 0 < b.weights.sum) :
    ∃ nfinal, runNorm v rows = some nfinal ∧
      final.normalized = nfinal.normalized ∧
      (rows ≠ [] → final.normalized = some nfinal) ∧
      (∀ cutoff, final.most_likely cutoff = nfinal.most_likely cutoff) := by
  obtain ⟨nfinal, c2, hrunN, hc2, hl2, hw2, hsum1⟩ :=
    run_scaled rows v v 1 one_pos rfl (by simp) final hrun hpos
  have hSf : 0 < final.weights.sum := by
    apply hpos rows.length final
    rw [List.take_length]
    exact hrun
  by_cases h0 : rows = []
  · subst h0
    have hfv : final = v := by
      unfold runRaw at hrun
      injection hrun with h
      exact h.symm
    have hnv : nfinal = v := by
      unfold runNorm at hrunN
      injection hrunN with h
      exact h.symm
    refine ⟨nfinal, hrunN, ?_, ?_, ?_⟩
    · rw [hfv, hnv]
    · intro hcon
      exact absurd rfl hcon
    · intro cutoff
      rw [hfv, hnv]
  · have hs1 : nfinal.weights.sum = 1 := hsum1 h0
    rw [hw2, sum_map_mul] at hs1
    have hc2eq : c2 = 1 / final.weights.sum := by
      rw [eq_div_iff hSf.ne']
      exact hs1
    have hw3 : nfinal.weights = final.weights.map (fun i => i / final.weights.sum) := by
      rw [hw2, hc2eq]
      refine List.map_congr_left ?_
      intro a ha
      exact one_div_mul_eq_div _ a
    have hnfn : nfinal = ⟨final.labels, final.weights.map (fun i => i / final.weights.sum)⟩ := by
      calc nfinal = ⟨nfinal.labels, nfinal.weights⟩ := rfl
        _ = ⟨final.labels, final.weights.map (fun i => i / final.weights.sum)⟩ := by
            rw [hl2, hw3]
    have hfn : final.normalized = some nfinal := by
      rw [normalized_of_sum_ne final hSf.ne', hnfn]
    have hsum12 : nfinal.weights.sum = 1 := hsum1 h0
    have hnn : nfinal.normalized = some nfinal := by
      rw [normalized_of_sum_ne nfinal (by rw [hsum12]; norm_num)]
      rw [hsum12]
      simp
    have heqn : final.normalized = nfinal.normalized := by
      rw [hfn, hnn]
    exact ⟨nfinal, hrunN, heqn, fun h2 => hfn,
      fun cutoff => most_likely_congr final nfinal hl2.symm heqn cutoff⟩

/-- Witness for C6: a concrete raw run followed by one normalization
equals the concrete normalizing run. -/
theorem update_variants_agree_witness :
    runNorm ⟨["a", "b"], [1, 1]⟩ [OddsLike.seq [1, 3]]
      = Bayes.normalized ⟨["a", "b"], [1, 3]⟩ := by
  have hraw : runRaw ⟨["a", "b"], [1, 1]⟩ [OddsLike.seq [1, 3]]
      = some ⟨["a", "b"], [1, 3]⟩ := by
    simp [runRaw, List.foldlM_cons, List.foldlM_nil, Bayes.update_raw, Bayes.mul, Bayes.cast]
  have hpos : ∀ n b2,
      runRaw ⟨["a", "b"], [1, 1]⟩ (List.take n [OddsLike.seq [1, 3]]) = some b2 →
      0 < b2.weights.sum := by
    intro n b2 hb
    cases n with
    | zero =>
      have hb2 : some (⟨["a", "b"], [1, 1]⟩ : Bayes) = some b2 := hb
      injection hb2 with h
      rw [← h]
      norm_num
    | succ m =>
      rw [List.take_succ_cons, List.take_nil, hraw] at hb
      injection hb with h
      rw [← h]
      norm_num
  obtain ⟨nf, h1, h2, h3, h4⟩ := update_variants_agree _ _ _ hraw hpos
  rw [h1, h3 (by simp)]
